import Mathlib

/-!
Shallow embedding of the core logic of the branchlet repository:

* `GitService.listWorktrees` — porcelain worktree-listing parser plus the
  main-worktree fix-up and the detached-branch defaulting,
* `GitService.listBranches` / `listRemoteBranches` — branch-listing parser,
  recency-rank sort and the remote-into-local merge,
* `GitService.getBranchStatus` — ahead/behind candidate loop,
* `GitService.deleteBranch`, `WorktreeService.deleteWorktree` — validation
  gates in front of the underlying subcommands,
* `handleGitError` — stderr substring classification,
* `resolveTemplate` / `getWorktreePath` — worktree path templating,
* `executePostCreateCommands` — sequential post-create command runner.

Strings are embedded as `List Char` (named `Str`) so that every operation is
executable by the kernel; JavaScript string primitives (`startsWith`,
`substring`, `split`, `trim`, `includes`, global replace) are re-implemented
below on `Str`.  Subprocess calls are passed in as oracle functions, so each
service method becomes a pure function of its inputs and of the subprocess
answers.
-/

/-- Embedded string type: a JavaScript string modeled as a list of characters. -/
abbrev Str := List Char

/-- Coerce a Lean string literal into the embedded string type. -/
def str (s : String) : Str := s.toList

/-- JS `a.startsWith(b)`. -/
def jsStartsWith (a b : Str) : Bool := b.isPrefixOf a

/-- JS `a.endsWith(b)`. -/
def jsEndsWith (a b : Str) : Bool := b.isSuffixOf a

/-- JS `a.includes(b)` (substring containment). -/
def jsIncludes (a b : Str) : Bool :=
  match a with
  | [] => b.isEmpty
  | c :: cs => b.isPrefixOf (c :: cs) || jsIncludes cs b

/-- JS `s.split(sep)` for a single-character separator. -/
def jsSplitChar (sep : Char) : Str → List Str
  | [] => [[]]
  | c :: cs =>
    let rest := jsSplitChar sep cs
    if c = sep then
      [] :: rest
    else
      match rest with
      | [] => [[c]]
      | h :: t => (c :: h) :: t

/-- JS `s.trim()`. -/
def jsTrim (s : Str) : Str :=
  ((s.dropWhile Char.isWhitespace).reverse.dropWhile Char.isWhitespace).reverse

/-- Strip a leading literal chunk once, as in `s.replace(/^chunk/, "")`. -/
def stripLead (chunk s : Str) : Str :=
  if chunk.isPrefixOf s then s.drop chunk.length else s

/-- Strip one trailing slash, as in `s.replace(/\/$/, "")`. -/
def stripTrailSlash (s : Str) : Str :=
  if s.getLast? = some '/' then s.dropLast else s

/-- Fueled worker for `replaceAll`; fuel bounds the number of scanned positions. -/
def replaceAllGo (pat repl : Str) : Nat → Str → Str
  | 0, s => s
  | _ + 1, [] => []
  | n + 1, c :: cs =>
    if pat ≠ [] ∧ pat.isPrefixOf (c :: cs) then
      repl ++ replaceAllGo pat repl n ((c :: cs).drop pat.length)
    else
      c :: replaceAllGo pat repl n cs

/-- JS `s.replace(new RegExp(escapedLiteral, "g"), repl)`: replace every
non-overlapping occurrence of the literal `pat`, scanning left to right. -/
def replaceAll (pat repl s : Str) : Str := replaceAllGo pat repl s.length s

/-- Decimal digit run to a number; used to model JS `Number` on `rev-list` output. -/
def digitsToNat (s : Str) : Nat :=
  s.foldl (fun n c => n * 10 + (c.toNat - 48)) 0

/-- JS `Number(x) || 0` on a count column: a non-empty all-digit string parses to
its value, anything else (including `undefined`) collapses to `0`. -/
def jsCountNum (s : Str) : Nat :=
  if s ≠ [] ∧ s.all Char.isDigit then digitsToNat s else 0

/-! ### Data model (src/types/git-types.ts) -/

/-- Ahead/behind record returned by `GitService.getBranchStatus`. -/
structure BranchStatus where
  ahead : Nat
  behind : Nat
  upstreamBranch : Str
deriving DecidableEq, Repr

/-- Worktree record produced by `GitService.listWorktrees`. -/
structure GitWorktree where
  path : Str
  commit : Option Str
  branch : Option Str
  isMain : Bool
  isClean : Bool
  branchStatus : Option BranchStatus
deriving DecidableEq, Repr

/-- Branch record produced by `GitService.listBranches`.  The `lastUsed` field
keeps the raw ISO date column (the service wraps it in a `Date`, which plays no
role in any claim). -/
structure GitBranch where
  name : Str
  commit : Str
  lastUsed : Str
  isCurrent : Bool
  isDefault : Bool
  isRemote : Bool
deriving DecidableEq, Repr

/-! ### GitService.listWorktrees — porcelain parser (src/unnamed/part_000, lines 54–114) -/

/-- The mutable `currentWorktree : Partial<GitWorktree>` accumulator. -/
structure PendingWorktree where
  path : Option Str := none
  commit : Option Str := none
  branch : Option Str := none
  isMain : Bool := false
deriving DecidableEq, Repr

/-- JS truthiness test `if (currentWorktree.path)`. -/
def pendingHasPath (w : PendingWorktree) : Bool :=
  match w.path with
  | some p => !p.isEmpty
  | none => false

/-- Push the pending record if it has a (truthy) path — the `worktrees.push`
guarded by `if (currentWorktree.path)`. -/
def flushPending (w : PendingWorktree) : List GitWorktree :=
  match w.path with
  | some p => if p.isEmpty then [] else [⟨p, w.commit, w.branch, w.isMain, false, none⟩]
  | none => []

/-- The `for (const line of lines)` parse loop of `listWorktrees`, including the
final flush after the loop. -/
def parseWTLines (cur : PendingWorktree) : List Str → List GitWorktree
  | [] => flushPending cur
  | line :: rest =>
    if jsStartsWith line (str "worktree ") then
      flushPending cur ++ parseWTLines { path := some (line.drop 9) } rest
    else if jsStartsWith line (str "HEAD ") then
      parseWTLines { cur with commit := some (line.drop 5) } rest
    else if jsStartsWith line (str "branch ") then
      parseWTLines { cur with branch := some (stripLead (str "refs/heads/") (line.drop 7)) } rest
    else if line = str "bare" then
      parseWTLines { cur with isMain := true } rest
    else if line = [] then
      if pendingHasPath cur then flushPending cur ++ parseWTLines {} rest
      else parseWTLines cur rest
    else
      parseWTLines cur rest

/-- The post-parse fix-up (lines 91–99): if the path of the FIRST parsed worktree
equals the repository root, or the root with one trailing slash stripped, flag
it as the main worktree. -/
def markMainWorktree (gitRoot : Str) : List GitWorktree → List GitWorktree
  | [] => []
  | w :: rest =>
    if w.path = gitRoot ∨ w.path = stripTrailSlash gitRoot then
      { w with isMain := true } :: rest
    else
      w :: rest

/-- The enrichment loop (lines 101–111): fill `isClean` from a `git status`
oracle, default a missing/empty branch to "detached", otherwise attach the
branch status delivered by the `getBranchStatus` oracle. -/
def enrichWorktree (clean : Str → Bool) (status : Str → Option BranchStatus)
    (w : GitWorktree) : GitWorktree :=
  let w1 := { w with isClean := clean w.path }
  match w1.branch with
  | none => { w1 with branch := some (str "detached") }
  | some b =>
    if b = [] then { w1 with branch := some (str "detached") }
    else
      match status b with
      | some st => { w1 with branchStatus := some st }
      | none => w1

/-- Pure core of `GitService.listWorktrees`: parse the porcelain lines, mark the
main worktree against the repository root, then run the enrichment loop.  The
`clean` and `status` oracles stand for the two per-worktree subprocess calls. -/
def listWorktreesPure (gitRoot : Str) (clean : Str → Bool)
    (status : Str → Option BranchStatus) (lines : List Str) : List GitWorktree :=
  (markMainWorktree gitRoot (parseWTLines {} lines)).map (enrichWorktree clean status)

/-- Path carried by a `worktree ` porcelain line (empty path included). -/
def wtLinePath (line : Str) : Option Str :=
  if jsStartsWith line (str "worktree ") then some (line.drop 9) else none

/-- Path carried by a `worktree ` porcelain line when that path is non-empty —
exactly the lines whose record survives the truthiness flush guard. -/
def wtLinePathNE (line : Str) : Option Str :=
  if jsStartsWith line (str "worktree ") then
    if line.drop 9 = [] then none else some (line.drop 9)
  else none

/-! ### Well-formed porcelain listings, block by block -/

/-- One block of a porcelain worktree listing: a `worktree <path>` head line
followed by attribute lines. -/
structure RawBlock where
  path : Str
  fields : List Str
deriving DecidableEq, Repr

/-- The lines of one block. -/
def blockLines (b : RawBlock) : List Str :=
  (str "worktree " ++ b.path) :: b.fields

/-- Lines of a listing made of blocks separated by single blank lines, with
`trail` trailing blank lines. -/
def listingLines : List RawBlock → Nat → List Str
  | [], trail => List.replicate trail []
  | [b], trail => blockLines b ++ List.replicate trail []
  | b :: b2 :: bs, trail => blockLines b ++ [[]] ++ listingLines (b2 :: bs) trail

/-- Well-formedness of one block: the head path is non-empty and attribute
lines are neither blank nor `worktree `-prefixed (those would start a new
block). -/
def WFBlock (b : RawBlock) : Prop :=
  b.path ≠ [] ∧ ∀ l ∈ b.fields, l ≠ [] ∧ jsStartsWith l (str "worktree ") = false

/-! ### GitService.listBranches — parsing, recency sort, remote merge
(src/unnamed/part_000, lines 116–240) -/

/-- Parse one `name|commit|iso-date` line of the formatted ref listing; the
destructuring `const [name, commit, dateStr] = line.split("|")` followed by the
truthiness guard `if (name && commit && dateStr)`. -/
def parseRefColumns (line : Str) : Option (Str × Str × Str) :=
  match jsSplitChar '|' line with
  | name :: commit :: dateStr :: _ =>
    if name ≠ [] ∧ commit ≠ [] ∧ dateStr ≠ [] then some (name, commit, dateStr) else none
  | _ => none

/-- Local-branch record built from one parsed line; `isCurrent`/`isDefault` by
string equality against the resolved current/default branch. -/
def mkLocalBranch (cur : Option Str) (dflt : Str) (cols : Str × Str × Str) : GitBranch :=
  ⟨cols.1, cols.2.1, cols.2.2, decide (cur = some cols.1), decide (cols.1 = dflt), false⟩

/-- The local-branch accumulation loop of `listBranches`: keep lines with
non-blank trim, parse the three columns, drop lines with a missing column. -/
def parseLocalBranches (cur : Option Str) (dflt : Str) (lines : List Str) : List GitBranch :=
  (lines.filter (fun l => !(jsTrim l).isEmpty)).filterMap
    (fun l => (parseRefColumns l).map (mkLocalBranch cur dflt))

/-- The rank map `new Map(recentBranches.map((name, index) => [name, index]))`:
pairs are inserted in order, a later binding for the same name overwrites an
earlier one. -/
def recencyRankMap (recency : List Str) : Str → Option Nat :=
  recency.enum.foldl (fun f p => fun n => if n = p.2 then some p.1 else f n) (fun _ => none)

/-- The comparator key `branchOrder.get(b.name) ?? 999`. -/
def rankOf (recency : List Str) (b : GitBranch) : Nat :=
  (recencyRankMap recency b.name).getD 999

/-- Stable insertion of one element into a list sorted by `r`: the element goes
after every element of equal or smaller rank. -/
def rankInsert (r : GitBranch → Nat) (x : GitBranch) : List GitBranch → List GitBranch
  | [] => [x]
  | y :: ys => if r y ≤ r x then y :: rankInsert r x ys else x :: y :: ys

/-- The in-place `branches.sort((a, b) => aOrder - bOrder)`: ECMAScript
`Array.prototype.sort` is required to be stable, and a stable sort by a
numeric key is (uniquely) the function below. -/
def rankSort (r : GitBranch → Nat) (l : List GitBranch) : List GitBranch :=
  l.foldl (fun acc x => rankInsert r x acc) []

/-- Shorten a remote ref name as `remote.name.replace(/^[^\/]+\//, "")`:
drop through the first slash when at least one non-slash character comes
before it, otherwise leave the name unchanged. -/
def stripRemoteSeg (s : Str) : Str :=
  match s with
  | [] => []
  | c :: cs =>
    if c = '/' then c :: cs
    else
      match cs.dropWhile (fun d => !(d = '/')) with
      | [] => c :: cs
      | _ :: rest => rest

/-- The loop body of `listRemoteBranches` (lines 190–210): parse the columns,
skip `HEAD` refs — names ending in "/HEAD" or containing no slash. -/
def parseRemoteBranches (lines : List Str) : List GitBranch :=
  (lines.filter (fun l => !(jsTrim l).isEmpty)).filterMap fun l =>
    match parseRefColumns l with
    | some cols =>
      if jsEndsWith cols.1 (str "/HEAD") ∨ ¬cols.1.contains '/' then none
      else some ⟨cols.1, cols.2.1, cols.2.2, false, false, true⟩
    | none => none

/-- The remote merge of `listBranches` (lines 160–170): append each remote
branch whose shortened name does not collide with a local branch name. -/
def mergeRemoteBranches (locals remotes : List GitBranch) : List GitBranch :=
  locals ++ remotes.filter
    (fun r => decide (stripRemoteSeg r.name ∉ locals.map GitBranch.name))

/-- Pure core of `GitService.listBranches`: parse the local listing, sort by
recency rank, and optionally merge the remote listing. -/
def listBranchesPure (cur : Option Str) (dflt : Str) (recency : List Str)
    (includeRemote : Bool) (localLines remoteLines : List Str) : List GitBranch :=
  let locals := rankSort (rankOf recency) (parseLocalBranches cur dflt localLines)
  if includeRemote then mergeRemoteBranches locals (parseRemoteBranches remoteLines)
  else locals

/-! ### GitService.getBranchStatus (src/unnamed/part_000, lines 297–326) -/

/-- Ahead/behind parse of a `rev-list --left-right --count` stdout:
`const [behind, ahead] = result.stdout.split("\t").map(Number)` with the
`|| 0` defaults. -/
def parseLeftRight (out : Str) : Nat × Nat :=
  let parts := jsSplitChar '\t' out
  (jsCountNum (parts.getD 0 []), jsCountNum (parts.getD 1 []))

/-- The candidate loop of `getBranchStatus`: skip a falsy candidate or one equal
to the target branch, return the first successful comparison, `none` when the
loop falls through.  `exec c` is the stdout of the `rev-list` comparison
against candidate `c`, `none` standing for subprocess failure. -/
def tryCandidates (target : Str) (exec : Str → Option Str) :
    List (Option Str) → Option BranchStatus
  | [] => none
  | c :: rest =>
    match c with
    | none => tryCandidates target exec rest
    | some cb =>
      if cb = [] ∨ cb = target then tryCandidates target exec rest
      else
        match exec cb with
        | some out => some ⟨(parseLeftRight out).2, (parseLeftRight out).1, cb⟩
        | none => tryCandidates target exec rest

/-- Pure core of `GitService.getBranchStatus`: try the default branch first,
then the current branch. -/
def getBranchStatusPure (dflt : Str) (cur : Option Str) (target : Str)
    (exec : Str → Option Str) : Option BranchStatus :=
  tryCandidates target exec [some dflt, cur]

/-! ### GitService.deleteBranch (src/unnamed/part_000, lines 328–346) -/

/-- Quote character, kept out of string literals. -/
def qc : Char := Char.ofNat 39

/-- Pure core of `GitService.deleteBranch`: refuse the current branch, refuse
the default branch, otherwise return the argv of the underlying delete
subcommand.  An `Except.error` is a thrown `Error` and means the subcommand is
never invoked. -/
def deleteBranchFlow (cur : Option Str) (dflt : Str) (branchName : Str)
    (force : Bool) : Except Str (List Str) :=
  if cur = some branchName then
    .error (str "Cannot delete current branch " ++ [qc] ++ branchName ++ [qc])
  else if branchName = dflt then
    .error (str "Cannot delete default branch " ++ [qc] ++ branchName ++ [qc])
  else
    .ok [str "branch", if force then str "-D" else str "-d", branchName]

/-! ### WorktreeService.deleteWorktree (src/services/worktree-service.ts,
lines 73–82) plus the argv building of GitService.deleteWorktree
(src/unnamed/part_000, lines 261–277) -/

/-- Argv of `git worktree remove` as assembled by `GitService.deleteWorktree`. -/
def gitDeleteWorktreeArgs (path : Str) (force : Bool) : List Str :=
  [str "worktree", str "remove"] ++ (if force then [str "--force"] else []) ++ [path]

/-- Pure core of `WorktreeService.deleteWorktree`: without force, a dirty
worktree makes the method throw the "uncommitted changes" `ValidationError`
before `GitService.deleteWorktree` runs; otherwise the underlying remove
subcommand is invoked with argv `gitDeleteWorktreeArgs`.  `clean` is the
`isWorktreeClean` status oracle.  The revision in src/unnamed/part_002
(lines 170–217) guards the remove subcommand with the identical check. -/
def deleteWorktreeFlow (clean : Str → Bool) (path : Str) (force : Bool) :
    Except Str (List Str) :=
  if !force then
    if !clean path then
      .error (str "Worktree has uncommitted changes. Use force to delete anyway.")
    else .ok (gitDeleteWorktreeArgs path force)
  else .ok (gitDeleteWorktreeArgs path force)

/-! ### handleGitError (src/src/utils/error-handlers.ts, lines 32–62) -/

/-- The closed set of classification codes actually present in
`handleGitError`. -/
inductive GitErrorCode where
  | alreadyExists
  | invalidRef
  | branchCheckedOut
  | pathNotFound
  | notGitRepo
  | gitOperationFailed
deriving DecidableEq, Repr

/-- The `GitWorktreeError` carrying a message, a code and the raw stderr. -/
structure GitWorktreeError where
  message : Str
  code : GitErrorCode
  gitOutput : Str
deriving DecidableEq, Repr

/-- Faithful translation of `handleGitError`: substring-match the stderr
against the known phrases, in source order, with the generic fallback last. -/
def handleGitError (stderr operation : Str) : GitWorktreeError :=
  if jsIncludes stderr (str "already exists") then
    ⟨str "Worktree or branch already exists", .alreadyExists, stderr⟩
  else if jsIncludes stderr (str "not a valid object name") then
    ⟨str "Invalid branch or commit reference", .invalidRef, stderr⟩
  else if jsIncludes stderr (str "is already checked out") then
    ⟨str "Branch is already checked out in another worktree", .branchCheckedOut, stderr⟩
  else if jsIncludes stderr (str "No such file or directory") then
    ⟨str "Path does not exist", .pathNotFound, stderr⟩
  else if jsIncludes stderr (str "not a git repository") then
    ⟨str "Not a git repository", .notGitRepo, stderr⟩
  else
    ⟨str "Git " ++ operation ++ str " operation failed: " ++ stderr, .gitOperationFailed, stderr⟩

/-! ### Path templating (src/unnamed/part_019: resolveTemplate, getWorktreePath)

The node `path` helpers (`basename`, `dirname`, `join`) are external library
calls; they are modeled below for POSIX paths that are already normalized
(no `.`/`..` segments), which covers every use in the repository. -/

/-- Segments of a path, empty segments dropped. -/
def pathSegs (p : Str) : List Str :=
  (jsSplitChar '/' p).filter (fun s => !s.isEmpty)

/-- Node `path.basename`: last non-empty segment. -/
def pathBase (p : Str) : Str :=
  (pathSegs p).getLast?.getD []

/-- Node `path.dirname` for a normalized POSIX path. -/
def pathDir (p : Str) : Str :=
  let abs := jsStartsWith p (str "/")
  match (pathSegs p).dropLast with
  | [] => if abs then str "/" else str "."
  | segs => (if abs then str "/" else []) ++ List.intercalate (str "/") segs

/-- Node `path.join` for two already-normalized parts. -/
def pathJoin (a b : Str) : Str :=
  if a.isEmpty then b
  else if b.isEmpty then a
  else if a.getLast? = some '/' then a ++ b
  else a ++ str "/" ++ b

/-- The `TemplateVariables` record. -/
structure TemplateVariables where
  BASE_PATH : Str
  WORKTREE_PATH : Str
  BRANCH_NAME : Str
  SOURCE_BRANCH : Str
deriving DecidableEq, Repr

/-- `Object.entries(variables)` in the key order of the object literal built by
`getWorktreePath`. -/
def templateEntries (v : TemplateVariables) : List (Str × Str) :=
  [(str "BASE_PATH", v.BASE_PATH), (str "WORKTREE_PATH", v.WORKTREE_PATH),
   (str "BRANCH_NAME", v.BRANCH_NAME), (str "SOURCE_BRANCH", v.SOURCE_BRANCH)]

/-- `resolveTemplate`: for each entry replace every occurrence of `$KEY` by the
value, one key after the other. -/
def resolveTemplate (template : Str) (v : TemplateVariables) : Str :=
  (templateEntries v).foldl (fun res kv => replaceAll ('$' :: kv.1) kv.2 res) template

/-- `getWorktreePath`: resolve the template against the repository base name
and parent directory, then append the worktree directory name. -/
def getWorktreePath (gitRoot directoryName template : Str)
    (branchName sourceBranch : Option Str) : Str :=
  let baseName := pathBase gitRoot
  let parentDir := pathDir gitRoot
  let vars : TemplateVariables :=
    ⟨baseName, pathJoin parentDir directoryName, branchName.getD [], sourceBranch.getD []⟩
  let resolved := resolveTemplate template vars
  let worktreeBase := pathJoin parentDir resolved
  pathJoin worktreeBase directoryName

/-! ### executePostCreateCommands (src/unnamed/part_001, lines 95–131) -/

/-- Outcome of one shell execution (`executeCommand`): exit success, captured
stdout, and the stderr/spawn-error text when present. -/
structure CmdExecResult where
  success : Bool
  output : Str
  error : Option Str
deriving DecidableEq, Repr

/-- One entry of the result array of `executePostCreateCommands`. -/
structure CmdReport where
  command : Str
  success : Bool
  output : Str
  error : Option Str
deriving DecidableEq, Repr

/-- Body of one loop iteration: a blank (or all-whitespace) command yields a
trivial success record without spawning; otherwise the command is run with
template variables substituted, and the `error` field is kept only when truthy
(`...(result.error && { error: result.error })`). -/
def runPostCreateCommand (vars : TemplateVariables) (exec : Str → CmdExecResult)
    (command : Str) : CmdReport :=
  if (jsTrim command).isEmpty then
    ⟨command, true, [], none⟩
  else
    let r := exec (resolveTemplate command vars)
    ⟨command, r.success, r.output,
      match r.error with
      | some e => if e.isEmpty then none else some e
      | none => none⟩

/-- Pure core of `executePostCreateCommands`: the sequential `for` loop pushing
one result record per command.  `exec` maps a resolved command line to its
execution outcome. -/
def executePostCreateCommandsPure (commands : List Str) (vars : TemplateVariables)
    (exec : Str → CmdExecResult) : List CmdReport :=
  commands.foldl (fun acc c => acc ++ [runPostCreateCommand vars exec c]) []

/-- Well-formedness of a block is a decidable check. -/
instance (b : RawBlock) : Decidable (WFBlock b) := by
  unfold WFBlock; infer_instance

/-! ### Helper definitions used by the theorems -/

/-- Path list contributed by the pending record if it were flushed now. -/
def pendPathList (w : PendingWorktree) : List Str :=
  match w.path with
  | some p => if p.isEmpty then [] else [p]
  | none => []

/-- Local branch with the given name and fixed commit/date columns, used to
state concrete ordering examples. -/
def exampleBranch (n : String) : GitBranch :=
  ⟨str n, str "c0ffee1", str "2024-01-01 00:00:00 +0000", false, false, false⟩

/-! ### Parser lemmas: the paths of the parsed worktree records -/

theorem flushPending_map_path (w : PendingWorktree) :
    (flushPending w).map GitWorktree.path = pendPathList w := by
  rcases w with ⟨p, c, b, m⟩
  cases p with
  | none => rfl
  | some p => simp only [flushPending, pendPathList]; split <;> simp

theorem pendPathList_commit (w : PendingWorktree) (x : Option Str) :
    pendPathList { w with commit := x } = pendPathList w := by
  rcases w with ⟨p, c, b, m⟩; rfl

theorem pendPathList_branch (w : PendingWorktree) (x : Option Str) :
    pendPathList { w with branch := x } = pendPathList w := by
  rcases w with ⟨p, c, b, m⟩; rfl

theorem pendPathList_isMain (w : PendingWorktree) (x : Bool) :
    pendPathList { w with isMain := x } = pendPathList w := by
  rcases w with ⟨p, c, b, m⟩; rfl

theorem pendPathList_eq_nil (w : PendingWorktree) (h : pendingHasPath w = false) :
    pendPathList w = [] := by
  rcases w with ⟨p, c, b, m⟩
  cases p with
  | none => rfl
  | some p =>
    simp only [pendingHasPath, Bool.not_eq_false'] at h
    simp [pendPathList, h]

theorem parseWTLines_map_path (lines : List Str) : ∀ cur : PendingWorktree,
    (parseWTLines cur lines).map GitWorktree.path
      = pendPathList cur ++ lines.filterMap wtLinePathNE := by
  induction lines with
  | nil => intro cur; simp [parseWTLines, flushPending_map_path]
  | cons line rest ih =>
    intro cur
    by_cases h1 : jsStartsWith line (str "worktree ")
    · simp only [parseWTLines, h1, if_true, List.map_append, ih, flushPending_map_path,
        List.filterMap_cons, wtLinePathNE]
      by_cases h9 : line.drop 9 = []
      · simp [pendPathList, h9]
      · simp [pendPathList, h9, List.isEmpty_iff]
    · have hwt : wtLinePathNE line = none := by simp [wtLinePathNE, h1]
      by_cases h2 : jsStartsWith line (str "HEAD ")
      · simp [parseWTLines, h1, h2, ih, pendPathList_commit, List.filterMap_cons, hwt]
      · by_cases h3 : jsStartsWith line (str "branch ")
        · simp [parseWTLines, h1, h2, h3, ih, pendPathList_branch, List.filterMap_cons, hwt]
        · by_cases h4 : line = str "bare"
          · subst h4
            simp [parseWTLines, ih, pendPathList_isMain, List.filterMap_cons, hwt,
              (by decide : jsStartsWith (str "bare") (str "worktree ") = false),
              (by decide : jsStartsWith (str "bare") (str "HEAD ") = false),
              (by decide : jsStartsWith (str "bare") (str "branch ") = false)]
          · by_cases h5 : line = []
            · subst h5
              by_cases h6 : pendingHasPath cur
              · simp [parseWTLines, h6, ih, flushPending_map_path,
                  List.filterMap_cons, hwt, pendPathList,
                  (by decide : jsStartsWith [] (str "worktree ") = false),
                  (by decide : jsStartsWith [] (str "HEAD ") = false),
                  (by decide : jsStartsWith [] (str "branch ") = false),
                  (by decide : ¬(([] : Str) = str "bare"))]
              · simp [parseWTLines, h6, ih, List.filterMap_cons, hwt,
                  pendPathList_eq_nil cur (by simpa using h6),
                  (by decide : jsStartsWith [] (str "worktree ") = false),
                  (by decide : jsStartsWith [] (str "HEAD ") = false),
                  (by decide : jsStartsWith [] (str "branch ") = false),
                  (by decide : ¬(([] : Str) = str "bare"))]
            · simp [parseWTLines, h1, h2, h3, h4, h5, ih, List.filterMap_cons, hwt]

theorem markMainWorktree_map_path (root : Str) (ws : List GitWorktree) :
    (markMainWorktree root ws).map GitWorktree.path = ws.map GitWorktree.path := by
  cases ws with
  | nil => rfl
  | cons w rest => simp only [markMainWorktree]; split <;> simp

theorem enrichWorktree_path (clean : Str → Bool) (status : Str → Option BranchStatus)
    (w : GitWorktree) : (enrichWorktree clean status w).path = w.path := by
  rcases w with ⟨p, c, b, m, cl, st⟩
  cases b with
  | none => rfl
  | some b =>
    simp only [enrichWorktree]
    split
    · rfl
    · split <;> rfl

theorem enrichWorktree_isMain (clean : Str → Bool) (status : Str → Option BranchStatus)
    (w : GitWorktree) : (enrichWorktree clean status w).isMain = w.isMain := by
  rcases w with ⟨p, c, b, m, cl, st⟩
  cases b with
  | none => rfl
  | some b =>
    simp only [enrichWorktree]
    split
    · rfl
    · split <;> rfl

theorem listWorktreesPure_map_path (root : Str) (clean : Str → Bool)
    (status : Str → Option BranchStatus) (lines : List Str) :
    (listWorktreesPure root clean status lines).map GitWorktree.path
      = lines.filterMap wtLinePathNE := by
  unfold listWorktreesPure
  rw [List.map_map]
  have hcomp : (GitWorktree.path ∘ enrichWorktree clean status) = GitWorktree.path :=
    funext fun w => enrichWorktree_path clean status w
  rw [hcomp, markMainWorktree_map_path, parseWTLines_map_path]
  rfl

theorem filterMap_listingLines (f : Str → Option Str) (hnil : f [] = none) :
    ∀ (blocks : List RawBlock) (trail : Nat),
    (∀ b ∈ blocks, (blockLines b).filterMap f = [b.path]) →
    (listingLines blocks trail).filterMap f = blocks.map RawBlock.path := by
  have hrep : ∀ n : Nat, (List.replicate n ([] : Str)).filterMap f = [] := by
    intro n
    induction n with
    | zero => rfl
    | succ n ih => simp [List.replicate_succ, List.filterMap_cons, hnil, ih]
  intro blocks
  induction blocks with
  | nil => intro trail _; simpa [listingLines] using hrep trail
  | cons b bs ih =>
    intro trail h
    cases bs with
    | nil =>
      simp only [listingLines, List.filterMap_append, List.map_cons, List.map_nil]
      rw [h b (by simp), hrep trail]
      simp
    | cons b2 bs2 =>
      simp only [listingLines, List.filterMap_append, List.map_cons]
      rw [h b (by simp), ih trail (fun x hx => h x (by simp [hx]))]
      simp [List.filterMap_cons, hnil]

theorem blockLines_filterMap_NE (b : RawBlock) (hb : WFBlock b) :
    (blockLines b).filterMap wtLinePathNE = [b.path] := by
  obtain ⟨hpath, hfields⟩ := hb
  simp only [blockLines, List.filterMap_cons]
  have hpre : jsStartsWith (str "worktree " ++ b.path) (str "worktree ") = true := by
    simp [jsStartsWith, List.isPrefixOf_iff_prefix, List.prefix_append]
  have hdrop : (str "worktree " ++ b.path).drop 9 = b.path := by
    have h9 : (str "worktree ").length = 9 := by decide
    rw [← h9, List.drop_left]
  have hhead : wtLinePathNE (str "worktree " ++ b.path) = some b.path := by
    simp [wtLinePathNE, hpre, hdrop, hpath]
  rw [hhead]
  have : b.fields.filterMap wtLinePathNE = [] := by
    rw [List.filterMap_eq_nil_iff]
    intro l hl
    simp [wtLinePathNE, (hfields l hl).2]
  rw [this]

theorem blockLines_filterMap_plain (b : RawBlock) (hb : WFBlock b) :
    (blockLines b).filterMap wtLinePath = [b.path] := by
  obtain ⟨hpath, hfields⟩ := hb
  simp only [blockLines, List.filterMap_cons]
  have hpre : jsStartsWith (str "worktree " ++ b.path) (str "worktree ") = true := by
    simp [jsStartsWith, List.isPrefixOf_iff_prefix, List.prefix_append]
  have hdrop : (str "worktree " ++ b.path).drop 9 = b.path := by
    have h9 : (str "worktree ").length = 9 := by decide
    rw [← h9, List.drop_left]
  have hhead : wtLinePath (str "worktree " ++ b.path) = some b.path := by
    simp [wtLinePath, hpre, hdrop]
  rw [hhead]
  have : b.fields.filterMap wtLinePath = [] := by
    rw [List.filterMap_eq_nil_iff]
    intro l hl
    simp [wtLinePath, (hfields l hl).2]
  rw [this]

/-! ### Claim C1 — main-worktree flagging against the repository root -/

/-- C1 counterexample: the claim says a worktree record whose path equals the
repository root is flagged main regardless of its position in the listing, but
`listWorktrees` only performs the root comparison on the FIRST parsed record
(part_000, lines 91–99).  In a listing whose second block carries the root
path, that record comes out with `isMain = false`. -/
theorem listWorktrees_root_record_second_not_marked :
    ∃ w ∈ listWorktreesPure (str "/r") (fun _ => false) (fun _ => none)
        [str "worktree /a", [], str "worktree /r"],
      w.path = str "/r" ∧ w.isMain = false := by decide

/-- C1 amended: only the FIRST parsed worktree record is compared against the
repository root; when its path equals the root as-is, or the root with one
trailing slash stripped, that first record is flagged as the main worktree. -/
theorem listWorktrees_first_record_rootpath_marked_main
    (root : Str) (clean : Str → Bool) (status : Str → Option BranchStatus)
    (lines : List Str) (w : GitWorktree)
    (hw : (listWorktreesPure root clean status lines).head? = some w)
    (hp : w.path = root ∨ w.path = stripTrailSlash root) :
    w.isMain = true := by
  unfold listWorktreesPure at hw
  rw [List.head?_map] at hw
  cases hm : (markMainWorktree root (parseWTLines {} lines)).head? with
  | none => rw [hm] at hw; exact absurd hw (by simp)
  | some w0 =>
    rw [hm] at hw
    simp only [Option.map_some'] at hw
    have hww0 : w = enrichWorktree clean status w0 := by
      injection hw with h; exact h.symm
    cases hps : parseWTLines {} lines with
    | nil => rw [hps] at hm; exact absurd hm (by simp [markMainWorktree])
    | cons v vs =>
      rw [hps] at hm
      simp only [markMainWorktree] at hm
      by_cases hcond : v.path = root ∨ v.path = stripTrailSlash root
      · rw [if_pos hcond] at hm
        simp only [List.head?_cons, Option.some.injEq] at hm
        rw [hww0, enrichWorktree_isMain, ← hm]
      · rw [if_neg hcond] at hm
        simp only [List.head?_cons, Option.some.injEq] at hm
        exfalso
        apply hcond
        have : w.path = v.path := by rw [hww0, enrichWorktree_path, ← hm]
        rw [← this]
        exact hp

/-- Witness for the amended C1 theorem: a one-block listing whose only
worktree path is the repository root comes out flagged main. -/
theorem listWorktrees_first_record_rootpath_marked_main_witness :
    (⟨str "/r", none, some (str "detached"), true, false, none⟩ : GitWorktree).isMain = true :=
  listWorktrees_first_record_rootpath_marked_main (str "/r") (fun _ => false)
    (fun _ => none) [str "worktree /r"] _ (by decide) (by decide)

/-! ### Claim C4 — parse round-trip over well-formed listings -/

/-- C4: for a well-formed porcelain listing (blocks headed by a
`worktree <path>` line with non-empty path, separated by single blank lines,
with any number of trailing blank lines), the paths of the parsed worktree
records are exactly the paths carried by the `worktree ` lines of the input —
in order, so in particular as sets: no record is dropped and none is
invented. -/
theorem listWorktrees_paths_roundtrip (blocks : List RawBlock) (trail : Nat)
    (root : Str) (clean : Str → Bool) (status : Str → Option BranchStatus)
    (hwf : ∀ b ∈ blocks, WFBlock b) :
    (listWorktreesPure root clean status (listingLines blocks trail)).map GitWorktree.path
      = (listingLines blocks trail).filterMap wtLinePath := by
  rw [listWorktreesPure_map_path,
    filterMap_listingLines wtLinePathNE (by decide) blocks trail
      (fun b hb => blockLines_filterMap_NE b (hwf b hb)),
    filterMap_listingLines wtLinePath (by decide) blocks trail
      (fun b hb => blockLines_filterMap_plain b (hwf b hb))]

/-- Witness for C4 at a concrete two-block listing with attribute lines and a
trailing blank line. -/
theorem listWorktrees_paths_roundtrip_witness :
    (listWorktreesPure (str "/r") (fun _ => true) (fun _ => none)
        (listingLines [⟨str "/r", [str "HEAD abc", str "branch refs/heads/main"]⟩,
          ⟨str "/w", [str "HEAD def"]⟩] 1)).map GitWorktree.path
      = (listingLines [⟨str "/r", [str "HEAD abc", str "branch refs/heads/main"]⟩,
          ⟨str "/w", [str "HEAD def"]⟩] 1).filterMap wtLinePath :=
  listWorktrees_paths_roundtrip _ 1 _ _ _ (by decide)

/-! ### Stable-sort lemmas for the recency reordering -/

theorem rankInsert_perm (r : GitBranch → Nat) (x : GitBranch) (l : List GitBranch) :
    (rankInsert r x l).Perm (x :: l) := by
  induction l with
  | nil => exact List.Perm.refl _
  | cons y ys ih =>
    simp only [rankInsert]
    split
    · exact (ih.cons y).trans (List.Perm.swap x y ys)
    · exact List.Perm.refl _

theorem rankInsert_sorted (r : GitBranch → Nat) (x : GitBranch) (l : List GitBranch)
    (h : l.Pairwise (fun a b => r a ≤ r b)) :
    (rankInsert r x l).Pairwise (fun a b => r a ≤ r b) := by
  induction l with
  | nil => simp [rankInsert]
  | cons y ys ih =>
    rw [List.pairwise_cons] at h
    obtain ⟨hy, hys⟩ := h
    simp only [rankInsert]
    split
    · rename_i hle
      rw [List.pairwise_cons]
      refine ⟨fun z hz => ?_, ih hys⟩
      rcases List.mem_cons.mp ((rankInsert_perm r x ys).mem_iff.mp hz) with hzx | hzy
      · rw [hzx]; exact hle
      · exact hy z hzy
    · rename_i hgt
      have hxy : r x ≤ r y := le_of_lt (lt_of_not_le hgt)
      rw [List.pairwise_cons]
      refine ⟨fun z hz => ?_, List.pairwise_cons.mpr ⟨hy, hys⟩⟩
      rcases List.mem_cons.mp hz with hzy | hzys
      · rw [hzy]; exact hxy
      · exact le_trans hxy (hy z hzys)

theorem rankInsert_filter (r : GitBranch → Nat) (x : GitBranch) (l : List GitBranch)
    (k : Nat) (h : l.Pairwise (fun a b => r a ≤ r b)) :
    (rankInsert r x l).filter (fun a => decide (r a = k))
      = l.filter (fun a => decide (r a = k)) ++ (if r x = k then [x] else []) := by
  induction l with
  | nil => simp only [rankInsert, List.filter]; split <;> simp_all
  | cons y ys ih =>
    rw [List.pairwise_cons] at h
    obtain ⟨hy, hys⟩ := h
    simp only [rankInsert]
    split
    · rename_i hle
      simp only [List.filter_cons, ih hys]
      split <;> simp
    · rename_i hgt
      have hlt : r x < r y := lt_of_not_le hgt
      by_cases hxk : r x = k
      · have hnil : (y :: ys).filter (fun a => decide (r a = k)) = [] := by
          rw [List.filter_eq_nil_iff]
          intro z hz
          have hz' : r y ≤ r z := by
            rcases List.mem_cons.mp hz with h' | h'
            · rw [h']
            · exact hy z h'
          simp only [decide_eq_true_eq]
          omega
        simp [hxk, hnil, List.filter_cons]
      · simp [List.filter_cons, hxk]

theorem rankSort_append_one (r : GitBranch → Nat) (l : List GitBranch) (x : GitBranch) :
    rankSort r (l ++ [x]) = rankInsert r x (rankSort r l) := by
  simp [rankSort, List.foldl_append]

theorem rankSort_sorted (r : GitBranch → Nat) (l : List GitBranch) :
    (rankSort r l).Pairwise (fun a b => r a ≤ r b) := by
  induction l using List.reverseRecOn with
  | nil => simp [rankSort]
  | append_singleton l x ih =>
    rw [rankSort_append_one]
    exact rankInsert_sorted r x _ ih

theorem rankSort_perm (r : GitBranch → Nat) (l : List GitBranch) :
    (rankSort r l).Perm l := by
  induction l using List.reverseRecOn with
  | nil => simp [rankSort]
  | append_singleton l x ih =>
    rw [rankSort_append_one]
    exact (rankInsert_perm r x _).trans
      ((ih.cons x).trans (List.perm_append_singleton x l).symm)

theorem rankSort_filter (r : GitBranch → Nat) (l : List GitBranch) (k : Nat) :
    (rankSort r l).filter (fun a => decide (r a = k))
      = l.filter (fun a => decide (r a = k)) := by
  induction l using List.reverseRecOn with
  | nil => simp [rankSort]
  | append_singleton l x ih =>
    rw [rankSort_append_one,
      rankInsert_filter r x _ k (rankSort_sorted r l), ih, List.filter_append]
    simp only [List.filter_cons, List.filter_nil]
    split <;> simp_all

theorem recencyRankMap_aux (n : Str) : ∀ (ps : List (Nat × Str)) (f0 : Str → Option Nat),
    n ∉ ps.map Prod.snd →
    ps.foldl (fun f p => fun m => if m = p.2 then some p.1 else f m) f0 n = f0 n := by
  intro ps
  induction ps with
  | nil => intro f0 _; rfl
  | cons p ps ih =>
    intro f0 h
    rw [List.map_cons, List.mem_cons] at h
    push_neg at h
    simp only [List.foldl_cons]
    rw [ih _ h.2]
    simp [h.1]

theorem rankOf_not_mem (recency : List Str) (b : GitBranch) (h : b.name ∉ recency) :
    rankOf recency b = 999 := by
  unfold rankOf recencyRankMap
  rw [recencyRankMap_aux b.name recency.enum _ (by rwa [List.enum_map_snd])]
  rfl

/-! ### Claim C2 — recency-rank ordering of the branch list -/

/-- C2: the final branch ordering is the stable sort of the parsed branch list
by ascending rank in the recency map — any branch absent from the map gets
rank 999, the output is a permutation of the input sorted by rank, branches of
equal rank (in particular all unranked ones) keep their original commit-date
order, and the pipeline `listBranchesPure` is exactly this sort of the parsed
local branches; on the example from the spec (recency [A, B, C] over the branch set
{A, B, C, D} in commit-date order [D, C, B, A]) the result is [A, B, C, D]. -/
theorem listBranches_recency_sort_rule :
    (∀ (branches : List GitBranch) (recency : List Str),
        (rankSort (rankOf recency) branches).Perm branches
      ∧ (rankSort (rankOf recency) branches).Pairwise
          (fun a b => rankOf recency a ≤ rankOf recency b)
      ∧ (∀ k, (rankSort (rankOf recency) branches).filter
            (fun b => decide (rankOf recency b = k))
          = branches.filter (fun b => decide (rankOf recency b = k)))
      ∧ (∀ b : GitBranch, b.name ∉ recency → rankOf recency b = 999))
  ∧ (∀ (cur : Option Str) (dflt : Str) (recency : List Str) (localLines : List Str),
      listBranchesPure cur dflt recency false localLines []
        = rankSort (rankOf recency) (parseLocalBranches cur dflt localLines))
  ∧ (rankSort (rankOf [str "A", str "B", str "C"])
        [exampleBranch "D", exampleBranch "C", exampleBranch "B", exampleBranch "A"]).map
          GitBranch.name
      = [str "A", str "B", str "C", str "D"] := by
  refine ⟨fun branches recency => ⟨rankSort_perm _ _, rankSort_sorted _ _,
    fun k => rankSort_filter _ _ k, fun b hb => rankOf_not_mem recency b hb⟩, ?_, by decide⟩
  intro cur dflt recency localLines
  rfl

/-- Witness for C2: branch D is absent from the recency list [A] and gets rank
999, and the concrete ordering example from the spec evaluates as claimed. -/
theorem listBranches_recency_sort_rule_witness :
    rankOf [str "A"] (exampleBranch "D") = 999
    ∧ (rankSort (rankOf [str "A", str "B", str "C"])
        [exampleBranch "D", exampleBranch "C", exampleBranch "B", exampleBranch "A"]).map
          GitBranch.name
      = [str "A", str "B", str "C", str "D"] :=
  ⟨(listBranches_recency_sort_rule.1 [] [str "A"]).2.2.2 (exampleBranch "D") (by decide),
    listBranches_recency_sort_rule.2.2⟩

/-! ### Claim C3 — stderr classification in handleGitError -/

/-- C3 evaluation: `handleGitError` has NO uncommitted-changes and NO
corrupted-worktree classification — its code type `GitErrorCode` carries only
six constructors — so the two stderr texts that the own test suite of the repository
(tests/utils/error-handlers.test.ts) requires to classify as
`UNCOMMITTED_CHANGES` and `CORRUPTED_WORKTREE` both fall through to the
generic fallback. -/
theorem handleGitError_missing_categories :
    (handleGitError (str "fatal: worktree is dirty") (str "delete worktree")).code
        = GitErrorCode.gitOperationFailed
  ∧ (handleGitError
        (str "fatal: validation failed, cannot remove working tree: " ++ [qc]
          ++ str "/private/tmp/test/.git" ++ [qc] ++ str " is not a .git file, error code 7")
        (str "delete worktree")).code
        = GitErrorCode.gitOperationFailed
  ∧ (handleGitError
        (str "fatal: worktree contains modified or untracked files, use --force to delete anyway")
        (str "delete worktree")).code
        = GitErrorCode.gitOperationFailed := by decide

/-! ### Claim C5 — cleanliness gate in WorktreeService.deleteWorktree -/

/-- C5: without the force flag a dirty worktree makes `deleteWorktree` fail
with the typed uncommitted-changes validation error and the underlying
`git worktree remove` argv is never produced; with the force flag the method
skips the cleanliness check entirely and always reaches the remove subcommand
with `--force`. -/
theorem deleteWorktree_cleanliness_gate (clean : Str → Bool) (path : Str) :
    (clean path = false →
      deleteWorktreeFlow clean path false
        = .error (str "Worktree has uncommitted changes. Use force to delete anyway."))
  ∧ deleteWorktreeFlow clean path true
      = .ok [str "worktree", str "remove", str "--force", path] := by
  constructor
  · intro h
    simp [deleteWorktreeFlow, h]
  · rfl

/-- Witness for C5 on a concrete always-dirty worktree. -/
theorem deleteWorktree_cleanliness_gate_witness :
    deleteWorktreeFlow (fun _ => false) (str "/w") false
        = .error (str "Worktree has uncommitted changes. Use force to delete anyway.")
    ∧ deleteWorktreeFlow (fun _ => false) (str "/w") true
        = .ok [str "worktree", str "remove", str "--force", str "/w"] :=
  ⟨(deleteWorktree_cleanliness_gate (fun _ => false) (str "/w")).1 rfl,
    (deleteWorktree_cleanliness_gate (fun _ => false) (str "/w")).2⟩

/-! ### Claim C8 — deleteBranch refuses the current and the default branch -/

/-- C8: for a branch equal to the current branch or to the default branch,
`deleteBranch` throws before building the argv of the underlying delete
subcommand, with and without force. -/
theorem deleteBranch_refuses_current_and_default (cur : Option Str) (dflt b : Str)
    (force : Bool) (h : cur = some b ∨ b = dflt) :
    ∃ msg, deleteBranchFlow cur dflt b force = .error msg := by
  unfold deleteBranchFlow
  by_cases hc : cur = some b
  · exact ⟨_, by rw [if_pos hc]⟩
  · have hd : b = dflt := h.resolve_left hc
    exact ⟨_, by rw [if_neg hc, if_pos hd]⟩

/-- Witness for C8: forced deletion of the current (and default) branch
errors out. -/
theorem deleteBranch_refuses_current_and_default_witness :
    ∃ msg, deleteBranchFlow (some (str "main")) (str "main") (str "main") true
      = .error msg :=
  deleteBranch_refuses_current_and_default (some (str "main")) (str "main")
    (str "main") true (Or.inl rfl)

/-! ### Claim C9 — worktree path templating example -/

/-- C9: with template `$BASE_PATH.worktree`, repository root `/home/u/myrepo`,
directory name `feat`, new branch `feature/x` and source branch `main`,
`getWorktreePath` resolves to `/home/u/myrepo.worktree/feat`. -/
theorem getWorktreePath_basepath_template_example :
    getWorktreePath (str "/home/u/myrepo") (str "feat") (str "$BASE_PATH.worktree")
      (some (str "feature/x")) (some (str "main"))
      = str "/home/u/myrepo.worktree/feat" := by decide

/-! ### Claim C10 — sequential post-create command execution -/

/-- C10: `executePostCreateCommands` produces exactly one result record per
command, in list order: the loop equals the map of the per-command runner over
the command list, so each record depends only on its own command (a failing
command never suppresses the records of later commands), each record is
labeled with its originating command, and the runner substitutes the template
variables before executing. -/
theorem executePostCreateCommands_one_record_each (commands : List Str)
    (vars : TemplateVariables) (exec : Str → CmdExecResult) :
    executePostCreateCommandsPure commands vars exec
        = commands.map (runPostCreateCommand vars exec)
    ∧ (executePostCreateCommandsPure commands vars exec).length = commands.length
    ∧ ∀ c, (runPostCreateCommand vars exec c).command = c := by
  have hfold : ∀ (l : List Str) (acc : List CmdReport),
      l.foldl (fun a c => a ++ [runPostCreateCommand vars exec c]) acc
        = acc ++ l.map (runPostCreateCommand vars exec) := by
    intro l
    induction l with
    | nil => intro acc; simp
    | cons c cs ih => intro acc; simp [ih]
  have hmap : executePostCreateCommandsPure commands vars exec
      = commands.map (runPostCreateCommand vars exec) := by
    unfold executePostCreateCommandsPure
    simpa using hfold commands []
  refine ⟨hmap, by rw [hmap, List.length_map], fun c => ?_⟩
  unfold runPostCreateCommand
  split <;> rfl

/-! ### Claim C6 — remote branch filtering and merge invariants -/

theorem parseLocalBranches_isRemote (cur : Option Str) (dflt : Str) (lines : List Str) :
    ∀ x ∈ parseLocalBranches cur dflt lines, x.isRemote = false := by
  intro x hx
  unfold parseLocalBranches at hx
  rcases List.mem_filterMap.mp hx with ⟨l, _, hl⟩
  cases hcols : parseRefColumns l with
  | none => rw [hcols] at hl; exact absurd hl (by simp)
  | some cols =>
    rw [hcols] at hl
    simp only [Option.map_some', Option.some.injEq] at hl
    rw [← hl]
    rfl

theorem parseRemoteBranches_facts (lines : List Str) :
    ∀ x ∈ parseRemoteBranches lines,
      x.isRemote = true ∧ jsEndsWith x.name (str "/HEAD") = false
        ∧ x.name.contains '/' = true := by
  intro x hx
  unfold parseRemoteBranches at hx
  rcases List.mem_filterMap.mp hx with ⟨l, _, hl⟩
  cases hcols : parseRefColumns l with
  | none => rw [hcols] at hl; exact absurd hl (by simp)
  | some cols =>
    simp only [hcols] at hl
    by_cases hskip : jsEndsWith cols.1 (str "/HEAD") = true ∨ ¬cols.1.contains '/' = true
    · rw [if_pos hskip] at hl; exact absurd hl (by simp)
    · rw [if_neg hskip] at hl
      push_neg at hskip
      simp only [Option.some.injEq] at hl
      rw [← hl]
      exact ⟨rfl, by simpa using hskip.1, by simpa using hskip.2⟩

/-- C6: in a combined branch list produced with remote branches included,
every remote entry has a name that does not end in "/HEAD" and contains a
slash, and its local-equivalent name (leading remote segment stripped) differs
from the name of every local entry of the same list. -/
theorem listBranches_remote_merge_invariants (cur : Option Str) (dflt : Str)
    (recency : List Str) (localLines remoteLines : List Str) (b : GitBranch)
    (hb : b ∈ listBranchesPure cur dflt recency true localLines remoteLines)
    (hrem : b.isRemote = true) :
    jsEndsWith b.name (str "/HEAD") = false
  ∧ b.name.contains '/' = true
  ∧ ∀ c ∈ listBranchesPure cur dflt recency true localLines remoteLines,
      c.isRemote = false → stripRemoteSeg b.name ≠ c.name := by
  have hlocals : ∀ x ∈ rankSort (rankOf recency) (parseLocalBranches cur dflt localLines),
      x.isRemote = false := fun x hx =>
    parseLocalBranches_isRemote cur dflt localLines x
      ((rankSort_perm (rankOf recency) _).mem_iff.mp hx)
  unfold listBranchesPure mergeRemoteBranches at hb
  simp only [if_true] at hb
  rcases List.mem_append.mp hb with hbl | hbf
  · exact absurd (hlocals b hbl) (by simp [hrem])
  · have hbr := List.mem_filter.mp hbf
    have hfacts := parseRemoteBranches_facts remoteLines b hbr.1
    refine ⟨hfacts.2.1, hfacts.2.2, ?_⟩
    intro c hc hcloc
    unfold listBranchesPure mergeRemoteBranches at hc
    simp only [if_true] at hc
    rcases List.mem_append.mp hc with hcl | hcf
    · have hnotin : stripRemoteSeg b.name
          ∉ (rankSort (rankOf recency) (parseLocalBranches cur dflt localLines)).map
              GitBranch.name := of_decide_eq_true hbr.2
      intro heq
      exact hnotin (heq ▸ List.mem_map_of_mem GitBranch.name hcl)
    · have := (parseRemoteBranches_facts remoteLines c (List.mem_filter.mp hcf).1).1
      rw [this] at hcloc
      exact absurd hcloc (by simp)

/-- Witness for C6 at a concrete local+remote listing: the surviving remote
entry `origin/feat` neither ends in "/HEAD" nor lacks a slash. -/
theorem listBranches_remote_merge_invariants_witness :
    jsEndsWith (str "origin/feat") (str "/HEAD") = false
    ∧ (str "origin/feat").contains '/' = true :=
  ⟨(listBranches_remote_merge_invariants (some (str "main")) (str "main") []
      [str "main|abc|2024-01-01 00:00:00 +0000"]
      [str "origin/feat|def|2024-01-02 00:00:00 +0000", str "origin/HEAD|aaa|2024",
        str "origin/main|abc|2024"]
      ⟨str "origin/feat", str "def", str "2024-01-02 00:00:00 +0000", false, false, true⟩
      (by decide) rfl).1,
    (listBranches_remote_merge_invariants (some (str "main")) (str "main") []
      [str "main|abc|2024-01-01 00:00:00 +0000"]
      [str "origin/feat|def|2024-01-02 00:00:00 +0000", str "origin/HEAD|aaa|2024",
        str "origin/main|abc|2024"]
      ⟨str "origin/feat", str "def", str "2024-01-02 00:00:00 +0000", false, false, true⟩
      (by decide) rfl).2.1⟩

/-! ### Claim C7 — ahead/behind candidate selection -/

theorem tryCandidates_single (target : Str) (exec : Str → Option Str)
    (cand : Option Str) (st : BranchStatus)
    (h : tryCandidates target exec [cand] = some st) :
    st.upstreamBranch ≠ target ∧ cand = some st.upstreamBranch := by
  cases cand with
  | none => exact absurd h (by simp [tryCandidates])
  | some cb =>
    by_cases hcb : cb = [] ∨ cb = target
    · rw [show tryCandidates target exec [some cb] = none by
        simp [tryCandidates, hcb]] at h
      exact absurd h (by simp)
    · cases hex : exec cb with
      | none =>
        rw [show tryCandidates target exec [some cb] = none by
          simp [tryCandidates, hcb, hex]] at h
        exact absurd h (by simp)
      | some out =>
        rw [show tryCandidates target exec [some cb]
            = some ⟨(parseLeftRight out).2, (parseLeftRight out).1, cb⟩ by
          simp [tryCandidates, hcb, hex]] at h
        injection h with h
        rw [← h]
        push_neg at hcb
        exact ⟨hcb.2, rfl⟩

/-- C7: `getBranchStatus` tries the default branch first and then the current
branch, skips a candidate that is falsy or equal to the target branch, and
returns `none` — never a zero/zero record — when no valid candidate remains or
the `rev-list` comparison of every candidate fails; on success the upstream is a
candidate different from the target. -/
theorem getBranchStatus_candidate_rules (dflt : Str) (cur : Option Str)
    (target : Str) (exec : Str → Option Str) :
    ((dflt = [] ∨ dflt = target) → (cur = none ∨ cur = some [] ∨ cur = some target) →
      getBranchStatusPure dflt cur target exec = none)
  ∧ ((∀ s, exec s = none) → getBranchStatusPure dflt cur target exec = none)
  ∧ (∀ out, ¬(dflt = [] ∨ dflt = target) → exec dflt = some out →
      getBranchStatusPure dflt cur target exec
        = some ⟨(parseLeftRight out).2, (parseLeftRight out).1, dflt⟩)
  ∧ (∀ st, getBranchStatusPure dflt cur target exec = some st →
      st.upstreamBranch ≠ target
        ∧ (st.upstreamBranch = dflt ∨ cur = some st.upstreamBranch)) := by
  refine ⟨?_, ?_, ?_, ?_⟩
  · intro h1 h2
    unfold getBranchStatusPure
    rw [show tryCandidates target exec [some dflt, cur]
        = tryCandidates target exec [cur] by simp [tryCandidates, h1]]
    rcases h2 with h | h | h <;> subst h <;> simp [tryCandidates]
  · intro hall
    unfold getBranchStatusPure
    by_cases h1 : dflt = [] ∨ dflt = target
    · rw [show tryCandidates target exec [some dflt, cur]
          = tryCandidates target exec [cur] by simp [tryCandidates, h1]]
      cases cur with
      | none => simp [tryCandidates]
      | some cb =>
        by_cases hcb : cb = [] ∨ cb = target <;> simp [tryCandidates, hcb, hall cb]
    · rw [show tryCandidates target exec [some dflt, cur]
          = tryCandidates target exec [cur] by simp [tryCandidates, h1, hall dflt]]
      cases cur with
      | none => simp [tryCandidates]
      | some cb =>
        by_cases hcb : cb = [] ∨ cb = target <;> simp [tryCandidates, hcb, hall cb]
  · intro out hne hex
    unfold getBranchStatusPure
    simp [tryCandidates, hne, hex]
  · intro st h
    unfold getBranchStatusPure at h
    by_cases h1 : dflt = [] ∨ dflt = target
    · rw [show tryCandidates target exec [some dflt, cur]
          = tryCandidates target exec [cur] by simp [tryCandidates, h1]] at h
      have := tryCandidates_single target exec cur st h
      exact ⟨this.1, Or.inr this.2⟩
    · cases hex : exec dflt with
      | some out =>
        rw [show tryCandidates target exec [some dflt, cur]
            = some ⟨(parseLeftRight out).2, (parseLeftRight out).1, dflt⟩ by
          simp [tryCandidates, h1, hex]] at h
        injection h with h
        rw [← h]
        push_neg at h1
        exact ⟨h1.2, Or.inl rfl⟩
      | none =>
        rw [show tryCandidates target exec [some dflt, cur]
            = tryCandidates target exec [cur] by simp [tryCandidates, h1, hex]] at h
        have := tryCandidates_single target exec cur st h
        exact ⟨this.1, Or.inr this.2⟩

/-- Witness for C7: with the default and the current branch both equal to the
target branch, the lookup yields `none`. -/
theorem getBranchStatus_candidate_rules_witness :
    getBranchStatusPure (str "main") (some (str "main")) (str "main")
      (fun _ => some (str "0\t0")) = none :=
  (getBranchStatus_candidate_rules (str "main") (some (str "main")) (str "main")
    (fun _ => some (str "0\t0"))).1 (Or.inr rfl) (Or.inr (Or.inr rfl))
